import Mathlib

/-!
Verification of the frodo repository's primitive layer (frodo.go): parameter
sets, Encode/Decode, Pack/Unpack, pseudorandom matrix generation (Gen) and
error sampling (SampleMatrix), shallowly embedded over Nat.  Bytes and uint16
values are Nat with explicit reductions where the Go machine types wrap; a Go
slice access that can panic is modelled with Option (none = panic).
-/

namespace Frodo

/-- Bit p of a byte buffer, MSB-first within each byte: the Go sources test
bits with the expression buf[p / 8] and (0x80 plus a right shift by p mod 8),
shared by Encode, Decode, Pack and Unpack. -/
def bitAt (k : List Nat) (p : Nat) : Bool :=
  ((k.getD (p / 8) 0) &&& (0x80 >>> (p % 8))) != 0

/-- Setting bit p of a byte buffer, MSB-first within each byte, as done by the
or-assignment in Decode and Pack.  List.set is a no-op out of range; callers
that model the Go bounds check wrap this in bset. -/
def setBit8 (k : List Nat) (p : Nat) : List Nat :=
  k.set (p / 8) ((k.getD (p / 8) 0) ||| (0x80 >>> (p % 8)))

/-- Bounds-checked bit write: the Go slice write panics when the byte index is
out of range, modelled as none. -/
def bset (k : List Nat) (p : Nat) : Option (List Nat) :=
  if p / 8 < k.length then some (setBit8 k p) else none

/-- Bounds-checked bit read: the Go slice read panics when the byte index is
out of range, modelled as none. -/
def bget (k : List Nat) (p : Nat) : Option Bool :=
  if p / 8 < k.length then some (bitAt k p) else none

/-- A left fold that aborts at the first failing step, modelling a Go loop in
which any step can panic. -/
def optFold (f : β → α → Option β) : β → List α → Option β
  | b, [] => some b
  | b, x :: xs =>
    match f b x with
    | some b2 => optFold f b2 xs
    | none => none

/-- Building a list element by element where any element's computation can
panic, modelling the Go loops that fill a freshly allocated slice. -/
def optMap (f : α → Option β) : List α → Option (List β)
  | [] => some []
  | x :: xs =>
    match f x, optMap f xs with
    | some y, some ys => some (y :: ys)
    | _, _ => none

/-- Parameters of the frodo KEM mechanism (the Go struct of the same name).
The modulus field q stores the bit mask 2 to the D minus one, as in the Go
sources (the comment there: minus one for bit masking). -/
structure Parameters where
  no : Nat
  q : Nat
  D : Nat
  m : Nat
  n : Nat
  B : Nat
  l : Nat
  lseedA : Nat

/-- The Frodo640 parameter record, field for field from the Go constructor. -/
def Frodo640 : Parameters :=
  { no := 640, q := 0x7fff, D := 15, m := 8, n := 8, B := 2, l := 16, lseedA := 16 }

/-- The Frodo976 parameter record, field for field from the Go constructor. -/
def Frodo976 : Parameters :=
  { no := 976, q := 0xffff, D := 16, m := 8, n := 8, B := 3, l := 24, lseedA := 16 }

/-- The Frodo1344 parameter record, field for field from the Go constructor. -/
def Frodo1344 : Parameters :=
  { no := 1344, q := 0xffff, D := 16, m := 8, n := 8, B := 4, l := 32, lseedA := 16 }

/-- Modelled from the spec: the helper ec called by Encode is part of this
repository but its defining file is not among the sources; the spec defines
ec(k) := k times 2 to the (D minus B), a uint16 value. -/
def ec (param : Parameters) (t : Nat) : Nat :=
  (t * 2 ^ (param.D - param.B)) % 65536

/-- Modelled from the spec: the helper dc called by Decode is part of this
repository but its defining file is not among the sources; the spec defines
dc(c) as nearest-integer rounding of c times 2 to the B over 2 to the D, with
round half up, reduced mod 2 to the B. -/
def dc (param : Parameters) (c : Nat) : Nat :=
  ((c * 2 ^ param.B + 2 ^ (param.D - 1)) / 2 ^ param.D) % 2 ^ param.B

/-- The B input bits that Encode gathers for the matrix cell (i, j): bit l of
the result is bit (i*n+j)*B+l of the input byte string (MSB-first per byte),
exactly the inner loop of the Go Encode. -/
def encTemp (param : Parameters) (k : List Nat) (i j : Nat) : Nat :=
  (List.range param.B).foldl
    (fun temp l =>
      if bitAt k ((i * param.n + j) * param.B + l) then temp ||| (1 <<< l) else temp)
    0

/-- Encode from the Go sources: an m-by-n matrix whose (i, j) entry is ec of
the B bits gathered for that cell.  In-range byte reads match the Go slice
reads; the claims only apply Encode to byte strings of the configured
length, for which every read is in range. -/
def Encode (param : Parameters) (k : List Nat) : List (List Nat) :=
  (List.range param.m).map fun i =>
    (List.range param.n).map fun j => ec param (encTemp param k i j)

/-- The inner loop of the Go Decode for one cell: write the B bits of temp
into the output buffer at positions (i*n+j)*B+l, MSB-first per byte. -/
def decSetCell (param : Parameters) (k : List Nat) (i j temp : Nat) : List Nat :=
  (List.range param.B).foldl
    (fun k2 l =>
      if temp &&& (1 <<< l) != 0 then setBit8 k2 ((i * param.n + j) * param.B + l) else k2)
    k

/-- The loop of the Go Decode over the cells of one row, j counting from the
given start index as in the Go range clause. -/
def decodeCells (param : Parameters) (i : Nat) : Nat → List Nat → List Nat → List Nat
  | _, [], k => k
  | j, c :: cs, k => decodeCells param i (j + 1) cs (decSetCell param k i j (dc param c))

/-- The loop of the Go Decode over the rows of the input matrix, i counting
from the given start index as in the Go range clause. -/
def decodeRows (param : Parameters) : Nat → List (List Nat) → List Nat → List Nat
  | _, [], k => k
  | i, row :: rest, k => decodeRows param (i + 1) rest (decodeCells param i 0 row k)

/-- Decode from the Go sources: allocate l zero bytes and write dc of every
entry of K into them, B bits per cell.  The claims only apply Decode to
m-by-n matrices, for which every buffer write is in range. -/
def Decode (param : Parameters) (K : List (List Nat)) : List Nat :=
  decodeRows param 0 K (List.replicate param.l 0)

/-- Pack from the Go sources: allocate D*n1*n2/8 zero bytes (Go integer
division) and append the D bits of every entry, row-major MSB-first.  The Go
code reads len(C[0]), which panics on an empty matrix, and its conditional
bit writes panic when the byte index reaches past the buffer; both are
modelled as none. -/
def Pack (param : Parameters) (C : List (List Nat)) : Option (List Nat) :=
  match C with
  | [] => none
  | r0 :: rest =>
    let n1 := (r0 :: rest).length
    let n2 := r0.length
    optFold
      (fun b i =>
        optFold
          (fun b2 j =>
            optFold
              (fun b3 pl =>
                if (((r0 :: rest).getD i []).getD j 0) &&& (1 <<< (param.D - 1 - pl)) != 0 then
                  bset b3 ((i * n2 + j) * param.D + pl)
                else some b3)
              b2 (List.range param.D))
          b (List.range n2))
      (List.replicate (param.D * n1 * n2 / 8) 0) (List.range n1)

/-- Unpack from the Go sources: read the D bits of every entry of an n1-by-n2
matrix from the byte string, row-major MSB-first.  Every bit of every entry
is read unconditionally, so a too-short byte string panics, modelled as
none. -/
def Unpack (param : Parameters) (b : List Nat) (n1 n2 : Nat) : Option (List (List Nat)) :=
  optMap
    (fun i =>
      optMap
        (fun j =>
          optFold
            (fun c pl =>
              match bget b ((i * n2 + j) * param.D + pl) with
              | some true => some (c ||| (1 <<< (param.D - 1 - pl)))
              | some false => some c
              | none => none)
            0 (List.range param.D))
        (List.range n2))
    (List.range n1)

/-- Gen from the Go sources, with the extendable-output hash passed as a
function argument: the method shake that Gen calls is part of this repository
but its defining file is not among the sources.  Modelled from the spec: shake
is SHAKE128 or SHAKE256, a deterministic function from the input bytes and the
requested output length to that many output bytes; it is therefore taken here
as an arbitrary function argument.  Reductions mod 256 model the Go byte type
of the hash input and output. -/
def Gen (shake : List Nat → Nat → List Nat) (param : Parameters) (seed : List Nat) :
    List (List Nat) :=
  (List.range param.no).map fun i =>
    let b := ((i >>> 8) % 256) :: (i % 256) :: seed
    let shakeStr := shake b (param.no * 2)
    (List.range param.no).map fun j =>
      ((((shakeStr.getD (j * 2) 0) % 256) <<< 8) |||
        ((shakeStr.getD (i * 2 + 1) 0) % 256)) &&& param.q

/-- Modelled from the spec: the row layout the spec prescribes for Gen, for
comparison with the source's Gen.  It differs from Gen only in taking the low
byte of the pair for column j from output byte 2j+1 (consecutive byte pairs,
big-endian), where the source reads output byte 2i+1. -/
def GenSpec (shake : List Nat → Nat → List Nat) (param : Parameters) (seed : List Nat) :
    List (List Nat) :=
  (List.range param.no).map fun i =>
    let b := ((i >>> 8) % 256) :: (i % 256) :: seed
    let shakeStr := shake b (param.no * 2)
    (List.range param.no).map fun j =>
      ((((shakeStr.getD (j * 2) 0) % 256) <<< 8) |||
        ((shakeStr.getD (j * 2 + 1) 0) % 256)) &&& param.q

/-- A concrete stand-in for the extendable-output function, used to evaluate
Gen at specific inputs: output byte p is p mod 256 regardless of the input. -/
def shakeCount : List Nat → Nat → List Nat :=
  fun _ len => (List.range len).map (· % 256)

/-- The little-endian 16-bit read binary.LittleEndian.Uint16(r[off:]) from the
Go SampleMatrix; fewer than two available bytes is a panic, modelled as none.
Reductions mod 256 model the Go byte type of the buffer elements. -/
def read2LE (r : List Nat) (off : Nat) : Option Nat :=
  match r[off]?, r[off + 1]? with
  | some lo, some hi => some ((lo % 256) ||| ((hi % 256) <<< 8))
  | _, _ => none

/-- The shadowing inner variable r of the Go SampleMatrix body: the 16-bit
word spread to a 24-bit value on uint32. -/
def rOf (t : Nat) : Nat := ((t <<< 8) + t) % 4294967296

/-- The bit-counting accumulator d of the Go SampleMatrix body: eight shifted
copies of rOf t, masked to the low bit of each of the four uint32 lanes and
added up. -/
def dOf (t : Nat) : Nat :=
  (List.range 8).foldl
    (fun d j => (d + (((rOf t <<< j) % 4294967296) &&& 0x01010101)) % 4294967296)
    0

/-- The value a of the Go SampleMatrix body: lane 1 plus lane 0 of d.  The two
masked summands are each at most 255, so the uint32 addition cannot wrap. -/
def aOf (t : Nat) : Nat := ((dOf t >>> 8) &&& 0xff) + (dOf t &&& 0xff)

/-- The value b of the Go SampleMatrix body: lane 3 plus lane 2 of d.  The two
summands are each at most 255, so the uint32 addition cannot wrap. -/
def bOf (t : Nat) : Nat := (dOf t >>> 24) + ((dOf t >>> 16) &&& 0xff)

/-- One sample: the Go uint16 expression 0xfffd - uint16(a) + uint16(b).  On
uint16 the left-to-right evaluation equals (0xfffd + 65536 - a + b) mod 65536
for every a and b below 65536, which is the form used here (adding 65536
before subtracting keeps Nat subtraction exact even where the Go uint16
subtraction would wrap). -/
def sampleT (t : Nat) : Nat :=
  (0xfffd + 65536 - (aOf t % 65536) + (bOf t % 65536)) % 65536

/-- SampleMatrix from the Go sources: entry (i, j) is the sample derived from
the little-endian 16-bit word at buffer offset 2*(i*n2+j).  The Go receiver
param is unused by the body, as here. -/
def SampleMatrix (_param : Parameters) (r : List Nat) (n1 n2 : Nat) :
    Option (List (List Nat)) :=
  optMap
    (fun i =>
      optMap (fun j => (read2LE r (2 * (i * n2 + j))).map sampleT) (List.range n2))
    (List.range n1)

/-- Modelled from the spec: the matrix addition used by the scheme is part of
this repository but its defining file is not among the sources; the spec (4.6)
specifies entrywise addition with modulo 2 to the D reduction as the final
step. -/
def sumMatrices (param : Parameters) (A B : List (List Nat)) : List (List Nat) :=
  List.zipWith (fun ra rb => List.zipWith (fun x y => (x + y) % 2 ^ param.D) ra rb) A B

/-! Basic lemmas about the bit-buffer primitives. -/

theorem shift128_eq (s : Nat) (h : s < 8) : (0x80 : Nat) >>> s = 2 ^ (7 - s) := by
  interval_cases s <;> rfl

theorem and_one_shift_ne (x t : Nat) : (x &&& (1 <<< t) != 0) = x.testBit t := by
  have h1 : (1 : Nat) <<< t = 2 ^ t := by
    rw [Nat.shiftLeft_eq, Nat.one_mul]
  rw [h1, Nat.and_two_pow]
  cases h : x.testBit t <;> simp [(Nat.two_pow_pos t).ne']

theorem and_two_pow_ne (x t : Nat) : (x &&& 2 ^ t != 0) = x.testBit t := by
  have := and_one_shift_ne x t
  rwa [Nat.shiftLeft_eq, Nat.one_mul] at this

theorem bitAt_eq_testBit (k : List Nat) (p : Nat) :
    bitAt k p = (k.getD (p / 8) 0).testBit (7 - p % 8) := by
  rw [bitAt, shift128_eq (p % 8) (Nat.mod_lt _ (by omega)), and_two_pow_ne]

theorem getD_eq_getElem {α : Type} (l : List α) (i : Nat) (d : α) (h : i < l.length) :
    l.getD i d = l[i] := by
  rw [List.getD_eq_getElem?_getD, List.getElem?_eq_getElem h]
  rfl

theorem length_setBit8 (k : List Nat) (p : Nat) : (setBit8 k p).length = k.length :=
  List.length_set ..

theorem setBit8_oob (k : List Nat) (p : Nat) (h : k.length ≤ p / 8) : setBit8 k p = k := by
  rw [setBit8, List.set_eq_of_length_le h]

theorem getD_setBit8_same (k : List Nat) (p : Nat) (h : p / 8 < k.length) :
    (setBit8 k p).getD (p / 8) 0 = (k.getD (p / 8) 0) ||| 2 ^ (7 - p % 8) := by
  rw [setBit8, shift128_eq (p % 8) (Nat.mod_lt _ (by omega))]
  simp [List.getD_eq_getElem?_getD, List.getElem?_set_self h]

theorem getD_setBit8_other (k : List Nat) (p i : Nat) (h : i ≠ p / 8) :
    (setBit8 k p).getD i 0 = k.getD i 0 := by
  rw [setBit8]
  simp [List.getD_eq_getElem?_getD, List.getElem?_set_ne (Ne.symm h)]

theorem bitAt_setBit8_self (k : List Nat) (p : Nat) (h : p / 8 < k.length) :
    bitAt (setBit8 k p) p = true := by
  rw [bitAt_eq_testBit, getD_setBit8_same k p h]
  simp [Nat.testBit_two_pow_self]

theorem bitAt_setBit8_other (k : List Nat) (p q : Nat) (h : q ≠ p) :
    bitAt (setBit8 k p) q = bitAt k q := by
  by_cases hin : p / 8 < k.length
  · rw [bitAt_eq_testBit, bitAt_eq_testBit]
    by_cases hb : q / 8 = p / 8
    · rw [hb, getD_setBit8_same k p hin]
      have hne : 7 - q % 8 ≠ 7 - p % 8 := by
        have h1 : q % 8 ≠ p % 8 := by
          intro he
          exact h (by omega)
        have h2 : q % 8 < 8 := Nat.mod_lt _ (by omega)
        have h3 : p % 8 < 8 := Nat.mod_lt _ (by omega)
        omega
      simp [Nat.testBit_or, Nat.testBit_two_pow_of_ne (fun he => hne he.symm)]
    · rw [getD_setBit8_other k p (q / 8) hb]
  · rw [setBit8_oob k p (by omega)]

theorem mem_setBit8_lt (k : List Nat) (p : Nat) (hk : ∀ b ∈ k, b < 256)
    (b : Nat) (hb : b ∈ setBit8 k p) : b < 256 := by
  by_cases hin : p / 8 < k.length
  · rw [setBit8] at hb
    rcases List.mem_or_eq_of_mem_set hb with h | h
    · exact hk b h
    · subst h
      have h1 : k.getD (p / 8) 0 < 256 := by
        have he : k.getD (p / 8) 0 = k[p / 8] := by
          simp [List.getD_eq_getElem?_getD, List.getElem?_eq_getElem hin]
        rw [he]
        exact hk _ (List.getElem_mem hin)
      have h2 : (0x80 : Nat) >>> (p % 8) < 256 := by
        rw [shift128_eq (p % 8) (Nat.mod_lt _ (by omega))]
        have : 7 - p % 8 ≤ 7 := by omega
        calc 2 ^ (7 - p % 8) ≤ 2 ^ 7 := Nat.pow_le_pow_right (by omega) this
        _ < 256 := by omega
      exact Nat.or_lt_two_pow (n := 8) h1 h2
  · rw [setBit8_oob k p (by omega)] at hb
    exact hk b hb

/-! Or-accumulator folds: the loops that assemble a value from single bits
(Encode's temp, Unpack's matrix entries). -/

theorem orAcc_testBit (g : Nat → Bool) (h : Nat → Nat) (n t : Nat) :
    ((List.range n).foldl (fun acc pl => if g pl then acc ||| (1 <<< h pl) else acc) 0).testBit t
      = true ↔ ∃ pl, pl < n ∧ g pl = true ∧ h pl = t := by
  induction n with
  | zero => simp
  | succ n ih =>
    rw [List.range_succ, List.foldl_append]
    simp only [List.foldl_cons, List.foldl_nil]
    by_cases hg : g n
    · rw [hg, if_pos rfl]
      have h1 : (1 : Nat) <<< h n = 2 ^ h n := by rw [Nat.shiftLeft_eq, Nat.one_mul]
      rw [h1, Nat.testBit_or]
      constructor
      · intro hor
        rcases Bool.or_eq_true_iff.mp hor with h2 | h2
        · obtain ⟨pl, hpl, hgl, hhl⟩ := ih.mp h2
          exact ⟨pl, by omega, hgl, hhl⟩
        · refine ⟨n, by omega, hg, ?_⟩
          by_contra hne
          rw [Nat.testBit_two_pow_of_ne hne] at h2
          exact Bool.false_ne_true h2
      · rintro ⟨pl, hpl, hgl, hhl⟩
        rcases Nat.lt_or_ge pl n with hlt | hge
        · exact Bool.or_eq_true_iff.mpr (Or.inl (ih.mpr ⟨pl, hlt, hgl, hhl⟩))
        · have : pl = n := by omega
          subst this
          rw [hhl, Nat.testBit_two_pow_self]
          simp
    · rw [if_neg (by simp [hg])]
      constructor
      · intro h2
        obtain ⟨pl, hpl, hgl, hhl⟩ := ih.mp h2
        exact ⟨pl, by omega, hgl, hhl⟩
      · rintro ⟨pl, hpl, hgl, hhl⟩
        rcases Nat.lt_or_ge pl n with hlt | hge
        · exact ih.mpr ⟨pl, hlt, hgl, hhl⟩
        · have : pl = n := by omega
          subst this
          rw [hgl] at hg
          exact absurd rfl hg

theorem orAcc_lt (g : Nat → Bool) (h : Nat → Nat) (n c : Nat)
    (hc : ∀ pl, pl < n → h pl < c) :
    (List.range n).foldl (fun acc pl => if g pl then acc ||| (1 <<< h pl) else acc) 0 < 2 ^ c := by
  induction n with
  | zero => simp [Nat.two_pow_pos c]
  | succ n ih =>
    rw [List.range_succ, List.foldl_append]
    simp only [List.foldl_cons, List.foldl_nil]
    have hacc := ih (fun pl hpl => hc pl (by omega))
    by_cases hg : g n
    · rw [hg, if_pos rfl]
      have h1 : (1 : Nat) <<< h n = 2 ^ h n := by rw [Nat.shiftLeft_eq, Nat.one_mul]
      rw [h1]
      exact Nat.or_lt_two_pow hacc (Nat.pow_lt_pow_right (by omega) (hc n (by omega)))
    · rw [if_neg (by simp [hg])]
      exact hacc

/-! The write-buffer fold: the loops that scatter bits into a freshly
allocated byte string (Decode's output, Pack's output). -/

theorem writeBits_spec (f : Nat → Bool) (k0 : List Nat) (hk0 : ∀ b ∈ k0, b < 256) (N : Nat) :
    ((List.range N).foldl (fun k p => if f p then setBit8 k p else k) k0).length = k0.length ∧
    (∀ b ∈ (List.range N).foldl (fun k p => if f p then setBit8 k p else k) k0, b < 256) ∧
    ∀ q, bitAt ((List.range N).foldl (fun k p => if f p then setBit8 k p else k) k0) q
      = (bitAt k0 q || (decide (q < N) && f q && decide (q / 8 < k0.length))) := by
  induction N with
  | zero =>
    refine ⟨rfl, hk0, ?_⟩
    intro q
    simp
  | succ N ih =>
    obtain ⟨ihlen, ihmem, ihbit⟩ := ih
    rw [List.range_succ, List.foldl_append] at *
    simp only [List.foldl_cons, List.foldl_nil]
    set kN := (List.range N).foldl (fun k p => if f p then setBit8 k p else k) k0 with hkN
    by_cases hf : f N
    · rw [if_pos hf]
      refine ⟨by rw [length_setBit8, ihlen], fun b hb => mem_setBit8_lt kN N ihmem b hb, ?_⟩
      intro q
      by_cases hq : q = N
      · subst hq
        by_cases hin : q / 8 < k0.length
        · rw [bitAt_setBit8_self kN q (by rw [ihlen]; exact hin)]
          simp [hf, hin]
        · rw [setBit8_oob kN q (by rw [ihlen]; omega), ihbit q]
          simp [hin]
      · rw [bitAt_setBit8_other kN N q hq, ihbit q]
        have hiff : (q < N + 1) ↔ (q < N) := by omega
        simp only [hiff]
    · rw [if_neg (by simp [hf])]
      refine ⟨ihlen, ihmem, ?_⟩
      intro q
      rw [ihbit q]
      by_cases hq : q = N
      · subst hq
        simp [hf]
      · have hiff : (q < N + 1) ↔ (q < N) := by omega
        simp only [hiff]

/-! Flattening nested loops over ranges into a single loop, matching the
row-major position arithmetic of the Go sources. -/

theorem foldl_range_mul {β : Type} (f : β → Nat → β) (a b : Nat) (init : β) :
    (List.range (a * b)).foldl f init
      = (List.range a).foldl
          (fun acc i => (List.range b).foldl (fun acc2 q => f acc2 (i * b + q)) acc) init := by
  induction a generalizing init with
  | zero => simp
  | succ a ih =>
    have h1 : (a + 1) * b = a * b + b := by ring
    rw [h1, List.range_add, List.foldl_append, List.range_succ, List.foldl_append]
    simp only [List.foldl_cons, List.foldl_nil]
    rw [ih, List.foldl_map]


/-! Converting the index-carrying recursions of Decode into range folds. -/

theorem decodeCells_eq_range (param : Parameters) (i : Nat) :
    ∀ (cs : List Nat) (j0 : Nat) (k : List Nat),
      decodeCells param i j0 cs k
        = (List.range cs.length).foldl
            (fun k2 dj => decSetCell param k2 i (j0 + dj) (dc param (cs.getD dj 0))) k := by
  intro cs
  induction cs with
  | nil => intro j0 k; simp [decodeCells]
  | cons c cs ih =>
    intro j0 k
    rw [decodeCells, ih (j0 + 1), List.length_cons, List.range_succ_eq_map]
    simp only [List.foldl_cons, List.foldl_map, List.getD_cons_zero, Nat.add_zero]
    apply List.foldl_ext
    intro k2 dj hdj
    have h1 : j0 + 1 + dj = j0 + (dj + 1) := by omega
    rw [h1]
    rfl

theorem decodeRows_eq_range (param : Parameters) :
    ∀ (rows : List (List Nat)) (i0 : Nat) (k : List Nat),
      decodeRows param i0 rows k
        = (List.range rows.length).foldl
            (fun k2 di => decodeCells param (i0 + di) 0 (rows.getD di []) k2) k := by
  intro rows
  induction rows with
  | nil => intro i0 k; simp [decodeRows]
  | cons row rows ih =>
    intro i0 k
    rw [decodeRows, ih (i0 + 1), List.length_cons, List.range_succ_eq_map]
    simp only [List.foldl_cons, List.foldl_map, List.getD_cons_zero, Nat.add_zero]
    apply List.foldl_ext
    intro k2 di hdi
    have h1 : i0 + 1 + di = i0 + (di + 1) := by omega
    rw [h1]
    rfl

/-! Bridging the Option-threaded loops to their pure counterparts when no
access can panic. -/

theorem optFold_some_of {α β : Type} (f : β → α → Option β) (g : β → α → β) (P : β → Prop) :
    ∀ (xs : List α) (b : β), P b →
      (∀ b2 x, P b2 → x ∈ xs → f b2 x = some (g b2 x) ∧ P (g b2 x)) →
      optFold f b xs = some (xs.foldl g b) ∧ P (xs.foldl g b) := by
  intro xs
  induction xs with
  | nil => intro b hb _; exact ⟨rfl, hb⟩
  | cons x xs ih =>
    intro b hb hstep
    obtain ⟨hfx, hPx⟩ := hstep b x hb (List.mem_cons_self _ _)
    rw [optFold, hfx]
    simp only [List.foldl_cons]
    exact ih (g b x) hPx (fun b2 y hb2 hy => hstep b2 y hb2 (List.mem_cons_of_mem x hy))

theorem optMap_some_of {α β : Type} (f : α → Option β) (g : α → β) :
    ∀ (xs : List α), (∀ x ∈ xs, f x = some (g x)) → optMap f xs = some (xs.map g) := by
  intro xs
  induction xs with
  | nil => intro _; rfl
  | cons x xs ih =>
    intro h
    rw [optMap, h x (List.mem_cons_self _ _), ih (fun y hy => h y (List.mem_cons_of_mem x hy))]
    simp

theorem optMap_mem {α β : Type} (f : α → Option β) :
    ∀ (xs : List α) (ys : List β), optMap f xs = some ys →
      ∀ y ∈ ys, ∃ x ∈ xs, f x = some y := by
  intro xs
  induction xs with
  | nil =>
    intro ys hys y hy
    rw [optMap] at hys
    cases hys
    simp at hy
  | cons x xs ih =>
    intro ys hys y hy
    rw [optMap] at hys
    cases hfx : f x with
    | none => rw [hfx] at hys; cases hys
    | some z =>
      rw [hfx] at hys
      cases hrest : optMap f xs with
      | none => rw [hrest] at hys; cases hys
      | some zs =>
        rw [hrest] at hys
        cases hys
        rcases List.mem_cons.mp hy with h | h
        · exact ⟨x, (List.mem_cons_self _ _), by rw [hfx, h]⟩
        · obtain ⟨x2, hx2, hfx2⟩ := ih zs hrest y h
          exact ⟨x2, List.mem_cons_of_mem x hx2, hfx2⟩

theorem optMap_none_of {α β : Type} (f : α → Option β) :
    ∀ (xs : List α), (∃ x ∈ xs, f x = none) → optMap f xs = none := by
  intro xs
  induction xs with
  | nil => rintro ⟨x, hx, _⟩; simp at hx
  | cons x xs ih =>
    rintro ⟨x2, hx2, hfx2⟩
    rw [optMap]
    rcases List.mem_cons.mp hx2 with h | h
    · subst h
      rw [hfx2]
    · rw [ih ⟨x2, h, hfx2⟩]
      cases f x <;> rfl

/-! Access helpers for matrices built with map over range. -/

theorem getD_map_range {α : Type} (f : Nat → α) (n i : Nat) (d : α) :
    ((List.range n).map f).getD i d = if i < n then f i else d := by
  by_cases h : i < n
  · rw [if_pos h]
    rw [List.getD_eq_getElem?_getD, List.getElem?_map, List.getElem?_range h]
    rfl
  · rw [if_neg h]
    have h1 : ((List.range n).map f).length ≤ i := by
      simp [List.length_map, List.length_range]
      omega
    rw [List.getD_eq_getElem?_getD, List.getElem?_eq_none h1]
    rfl

theorem getD_replicate_nat (L i : Nat) : (List.replicate L (0 : Nat)).getD i 0 = 0 := by
  by_cases h : i < L
  · rw [List.getD_eq_getElem?_getD, List.getElem?_replicate]
    simp [h]
  · rw [List.getD_eq_getElem?_getD, List.getElem?_eq_none (by simp [List.length_replicate]; omega)]
    rfl

theorem bitAt_replicate_zero (L q : Nat) : bitAt (List.replicate L 0) q = false := by
  rw [bitAt_eq_testBit, getD_replicate_nat]
  simp


/-! The per-cell rounding argument: dc recovers the encoded bits from
ec plus small noise. -/

theorem round_trip_cell (B D t e : Nat) (hB : 0 < B) (hBD : B < D) (ht : t < 2 ^ B)
    (he : e < 2 ^ D)
    (hmag : e < 2 ^ (D - B - 1) ∨ 2 ^ D - e < 2 ^ (D - B - 1)) :
    ((t * 2 ^ (D - B) + e) % 2 ^ D * 2 ^ B + 2 ^ (D - 1)) / 2 ^ D % 2 ^ B = t := by
  have hq1 : (2 : Nat) ^ (D - B) = 2 * 2 ^ (D - B - 1) := by
    rw [← Nat.pow_succ']
    congr 1
    omega
  have hq2 : (2 : Nat) ^ D = 2 ^ B * 2 ^ (D - B) := by
    rw [← Nat.pow_add]
    congr 1
    omega
  have hq3 : (2 : Nat) ^ (D - 1) = 2 ^ B * 2 ^ (D - B - 1) := by
    rw [← Nat.pow_add]
    congr 1
    omega
  have hq4 : (2 : Nat) ^ D = 2 * 2 ^ (D - 1) := by
    rw [← Nat.pow_succ']
    congr 1
    omega
  have hmupos : 0 < (2 : Nat) ^ (D - B - 1) := Nat.two_pow_pos _
  have hPBpos : 0 < (2 : Nat) ^ B := Nat.two_pow_pos _
  have hPDpos : 0 < (2 : Nat) ^ D := Nat.two_pow_pos _
  have hPDBpos : 0 < (2 : Nat) ^ (D - B) := Nat.two_pow_pos _
  have hPHpos : 0 < (2 : Nat) ^ (D - 1) := Nat.two_pow_pos _
  have hT : t * 2 ^ (D - B) + 2 ^ (D - B) ≤ 2 ^ D := by
    have h2 : (t + 1) * 2 ^ (D - B) ≤ 2 ^ B * 2 ^ (D - B) :=
      Nat.mul_le_mul_right _ ht
    rw [Nat.succ_mul] at h2
    rw [hq2]
    exact h2
  rcases hmag with h1 | h1
  · have he2 : e < 2 ^ (D - B) := by omega
    have hv : (t * 2 ^ (D - B) + e) % 2 ^ D = t * 2 ^ (D - B) + e :=
      Nat.mod_eq_of_lt (by omega)
    rw [hv]
    have hnum : (t * 2 ^ (D - B) + e) * 2 ^ B + 2 ^ (D - 1)
        = e * 2 ^ B + 2 ^ (D - 1) + 2 ^ D * t := by
      rw [hq2]
      ring
    rw [hnum, Nat.add_mul_div_left _ _ hPDpos]
    have h3 : e * 2 ^ B < 2 ^ (D - B - 1) * 2 ^ B := mul_lt_mul_of_pos_right h1 hPBpos
    have h4 : (2 : Nat) ^ (D - B - 1) * 2 ^ B = 2 ^ (D - 1) := by
      rw [hq3]
      ring
    have hrem : e * 2 ^ B + 2 ^ (D - 1) < 2 ^ D := by omega
    rw [Nat.div_eq_of_lt hrem, Nat.zero_add]
    exact Nat.mod_eq_of_lt ht
  · obtain ⟨e2, he2e⟩ : ∃ e2, e + e2 = 2 ^ D := ⟨2 ^ D - e, by omega⟩
    have h1' : e2 < 2 ^ (D - B - 1) := by omega
    have he2pos : 0 < e2 := by omega
    have hE2B : e2 * 2 ^ B < 2 ^ (D - 1) := by
      have h3 := mul_lt_mul_of_pos_right h1' hPBpos
      have h4 : (2 : Nat) ^ (D - B - 1) * 2 ^ B = 2 ^ (D - 1) := by
        rw [hq3]
        ring
      omega
    by_cases ht0 : t = 0
    · subst ht0
      have hv : (0 * 2 ^ (D - B) + e) % 2 ^ D = e := by
        rw [Nat.zero_mul, Nat.zero_add]
        exact Nat.mod_eq_of_lt he
      rw [hv]
      have hEB : e * 2 ^ B + e2 * 2 ^ B = 2 ^ B * 2 ^ D := by
        calc e * 2 ^ B + e2 * 2 ^ B = (e + e2) * 2 ^ B := (Nat.add_mul e e2 _).symm
        _ = 2 ^ D * 2 ^ B := by rw [he2e]
        _ = 2 ^ B * 2 ^ D := Nat.mul_comm _ _
      have hdiv : (e * 2 ^ B + 2 ^ (D - 1)) / 2 ^ D = 2 ^ B := by
        apply Nat.div_eq_of_lt_le
        · omega
        · have hexp : (2 ^ B + 1) * 2 ^ D = 2 ^ B * 2 ^ D + 2 ^ D := by ring
          omega
      rw [hdiv, Nat.mod_self]
    · have ht1 : 0 < t := by omega
      have hTlow : 2 ^ (D - B) ≤ t * 2 ^ (D - B) := Nat.le_mul_of_pos_left _ ht1
      have he2small : e2 < 2 ^ (D - B) := by omega
      have hvsum : t * 2 ^ (D - B) + e = 2 ^ D + (t * 2 ^ (D - B) - e2) := by omega
      have hwlt : t * 2 ^ (D - B) - e2 < 2 ^ D := by omega
      have hv : (t * 2 ^ (D - B) + e) % 2 ^ D = t * 2 ^ (D - B) - e2 := by
        rw [hvsum, Nat.add_mod_left]
        exact Nat.mod_eq_of_lt hwlt
      rw [hv]
      have hTB : t * 2 ^ (D - B) * 2 ^ B = t * 2 ^ D := by
        rw [hq2]
        ring
      have hsubmul : (t * 2 ^ (D - B) - e2) * 2 ^ B = t * 2 ^ (D - B) * 2 ^ B - e2 * 2 ^ B :=
        Nat.sub_mul _ _ _
      have hTD : 2 ^ D ≤ t * 2 ^ D := Nat.le_mul_of_pos_left _ ht1
      have h5 : (2 : Nat) ^ (D - 1) < 2 ^ D := by omega
      have hdiv : ((t * 2 ^ (D - B) - e2) * 2 ^ B + 2 ^ (D - 1)) / 2 ^ D = t := by
        apply Nat.div_eq_of_lt_le
        · omega
        · have hexp : (t + 1) * 2 ^ D = t * 2 ^ D + 2 ^ D := by ring
          omega
      rw [hdiv]
      exact Nat.mod_eq_of_lt ht

theorem dc_ec_add_noise (param : Parameters) (hB : 0 < param.B) (hBD : param.B < param.D)
    (hD : param.D ≤ 16) (t e : Nat) (ht : t < 2 ^ param.B) (he : e < 2 ^ param.D)
    (hmag : e < 2 ^ (param.D - param.B - 1) ∨
      2 ^ param.D - e < 2 ^ (param.D - param.B - 1)) :
    dc param ((ec param t + e) % 2 ^ param.D) = t := by
  have hec : ec param t = t * 2 ^ (param.D - param.B) := by
    rw [ec]
    apply Nat.mod_eq_of_lt
    have h2 : (t + 1) * 2 ^ (param.D - param.B) ≤ 2 ^ param.B * 2 ^ (param.D - param.B) :=
      Nat.mul_le_mul_right _ ht
    rw [Nat.succ_mul] at h2
    have hq2 : (2 : Nat) ^ param.D = 2 ^ param.B * 2 ^ (param.D - param.B) := by
      rw [← Nat.pow_add]
      congr 1
      omega
    have h3 : (2 : Nat) ^ param.D ≤ 2 ^ 16 := Nat.pow_le_pow_right (by omega) hD
    have h4 : 0 < (2 : Nat) ^ (param.D - param.B) := Nat.two_pow_pos _
    have h5 : (2 : Nat) ^ 16 = 65536 := by norm_num
    omega
  rw [dc, hec]
  exact round_trip_cell param.B param.D t e hB hBD ht he hmag


/-! Lane analysis of the sampler accumulator: the four uint32 byte lanes of d
stay small, bounding the Go values a and b. -/

theorem and_ff_eq_mod (y : Nat) : y &&& 0xff = y % 256 := by
  have h8 : (0xff : Nat) = 2 ^ 8 - 1 := by norm_num
  rw [h8, Nat.and_pow_two_sub_one_eq_mod]

theorem and_shiftRight_distrib (x y n : Nat) :
    (x &&& y) >>> n = (x >>> n) &&& (y >>> n) := by
  apply Nat.eq_of_testBit_eq
  intro i
  simp [Nat.testBit_shiftRight, Nat.testBit_and]

theorem byte_lanes (y : Nat) :
    y = (y &&& 0xff) + ((y >>> 8) &&& 0xff) * 256 + ((y >>> 16) &&& 0xff) * 65536
      + (y >>> 24) * 16777216 := by
  have e1 : y &&& 0xff = y % 256 := and_ff_eq_mod y
  have e2 : (y >>> 8) &&& 0xff = y / 256 % 256 := by
    rw [and_ff_eq_mod, Nat.shiftRight_eq_div_pow]
  have e3 : (y >>> 16) &&& 0xff = y / 65536 % 256 := by
    rw [and_ff_eq_mod, Nat.shiftRight_eq_div_pow]
  have e4 : y >>> 24 = y / 16777216 := by
    rw [Nat.shiftRight_eq_div_pow]
  rw [e1, e2, e3, e4]
  omega

theorem term_lanes (x : Nat) :
    (x &&& 0x01010101) &&& 0xff ≤ 1 ∧ ((x &&& 0x01010101) >>> 8) &&& 0xff ≤ 1 ∧
      ((x &&& 0x01010101) >>> 16) &&& 0xff ≤ 1 ∧ (x &&& 0x01010101) >>> 24 ≤ 1 := by
  refine ⟨?_, ?_, ?_, ?_⟩
  · rw [Nat.and_assoc]
    have h1 : (0x01010101 : Nat) &&& 0xff = 1 := by decide
    rw [h1]
    exact Nat.and_le_right
  · rw [and_shiftRight_distrib, Nat.and_assoc]
    have h1 : ((0x01010101 : Nat) >>> 8) &&& 0xff = 1 := by decide
    rw [h1]
    exact Nat.and_le_right
  · rw [and_shiftRight_distrib, Nat.and_assoc]
    have h1 : ((0x01010101 : Nat) >>> 16) &&& 0xff = 1 := by decide
    rw [h1]
    exact Nat.and_le_right
  · rw [and_shiftRight_distrib]
    have h1 : (0x01010101 : Nat) >>> 24 = 1 := by decide
    rw [h1]
    exact Nat.and_le_right

theorem dfold_lanes (x : Nat) :
    ∀ k, k ≤ 8 →
      ∃ A B2 C E2,
        (List.range k).foldl
            (fun d j => (d + (((x <<< j) % 4294967296) &&& 0x01010101)) % 4294967296) 0
          = A + B2 * 256 + C * 65536 + E2 * 16777216
        ∧ A ≤ k ∧ B2 ≤ k ∧ C ≤ k ∧ E2 ≤ k := by
  intro k
  induction k with
  | zero =>
    intro _
    exact ⟨0, 0, 0, 0, by simp⟩
  | succ k ih =>
    intro hk
    obtain ⟨A, B2, C, E2, heq, hA, hB, hC, hE⟩ := ih (by omega)
    rw [List.range_succ, List.foldl_append]
    simp only [List.foldl_cons, List.foldl_nil]
    rw [heq]
    have hlanes := term_lanes ((x <<< k) % 4294967296)
    obtain ⟨hz0, hz1, hz2, hz3⟩ := hlanes
    have hzle : ((x <<< k) % 4294967296) &&& 0x01010101 ≤ 0x01010101 := Nat.and_le_right
    have hzdec := byte_lanes (((x <<< k) % 4294967296) &&& 0x01010101)
    refine ⟨A + ((((x <<< k) % 4294967296) &&& 0x01010101) &&& 0xff),
      B2 + (((((x <<< k) % 4294967296) &&& 0x01010101) >>> 8) &&& 0xff),
      C + (((((x <<< k) % 4294967296) &&& 0x01010101) >>> 16) &&& 0xff),
      E2 + ((((x <<< k) % 4294967296) &&& 0x01010101) >>> 24),
      ?_, by omega, by omega, by omega, by omega⟩
    have hmod : (A + B2 * 256 + C * 65536 + E2 * 16777216 +
        (((x <<< k) % 4294967296) &&& 0x01010101)) % 4294967296
        = A + B2 * 256 + C * 65536 + E2 * 16777216 +
          (((x <<< k) % 4294967296) &&& 0x01010101) :=
      Nat.mod_eq_of_lt (by omega)
    rw [hmod]
    omega

theorem sampler_a_b_le (t : Nat) : aOf t ≤ 16 ∧ bOf t ≤ 16 := by
  obtain ⟨A, B2, C, E2, heq, hA, hB, hC, hE⟩ := dfold_lanes (rOf t) 8 (le_refl 8)
  have hd : dOf t = A + B2 * 256 + C * 65536 + E2 * 16777216 := heq
  constructor
  · rw [aOf, hd, and_ff_eq_mod, and_ff_eq_mod, Nat.shiftRight_eq_div_pow]
    norm_num
    omega
  · rw [bOf, hd, and_ff_eq_mod, Nat.shiftRight_eq_div_pow, Nat.shiftRight_eq_div_pow]
    norm_num
    omega

theorem sampleT_form (t : Nat) :
    ∃ a b, a ≤ 16 ∧ b ≤ 16 ∧ sampleT t = (0xfffd - a + b) % 65536
      ∧ (0xffed ≤ sampleT t ∨ sampleT t ≤ 0xd) := by
  obtain ⟨ha, hb⟩ := sampler_a_b_le t
  refine ⟨aOf t, bOf t, ha, hb, ?_, ?_⟩
  · rw [sampleT]
    omega
  · rw [sampleT]
    omega

theorem sampleT_lt (t : Nat) : sampleT t < 65536 := by
  rw [sampleT]
  omega

theorem read2LE_some (r : List Nat) (off : Nat) (h : off + 1 < r.length) :
    read2LE r off
      = some ((r.getD off 0 % 256) ||| ((r.getD (off + 1) 0 % 256) <<< 8)) := by
  rw [read2LE, List.getElem?_eq_getElem (show off < r.length by omega),
    List.getElem?_eq_getElem h, getD_eq_getElem r off 0 (by omega),
    getD_eq_getElem r (off + 1) 0 h]


/-! Helpers for Gen and SampleMatrix access. -/

theorem gen_entry (shake : List Nat → Nat → List Nat) (param : Parameters) (seed : List Nat)
    (i j : Nat) (hi : i < param.no) (hj : j < param.no) :
    ((Gen shake param seed).getD i []).getD j 0
      = ((((shake (((i >>> 8) % 256) :: (i % 256) :: seed) (param.no * 2)).getD (j * 2) 0
            % 256) <<< 8) |||
          ((shake (((i >>> 8) % 256) :: (i % 256) :: seed) (param.no * 2)).getD (i * 2 + 1) 0
            % 256)) &&& param.q := by
  rw [Gen, getD_map_range, if_pos hi, getD_map_range, if_pos hj]

theorem optMap_isSome {α β : Type} (f : α → Option β) :
    ∀ (xs : List α), (∀ x ∈ xs, (f x).isSome = true) → (optMap f xs).isSome = true := by
  intro xs
  induction xs with
  | nil => intro _; rfl
  | cons x xs ih =>
    intro h
    have hx := h x (List.mem_cons_self _ _)
    have hxs := ih (fun y hy => h y (List.mem_cons_of_mem x hy))
    rw [optMap]
    cases hfx : f x with
    | none => rw [hfx] at hx; cases hx
    | some y =>
      cases hrest : optMap f xs with
      | none => rw [hrest] at hxs; cases hxs
      | some ys => rfl

theorem read2LE_none (r : List Nat) (off : Nat) (h : r.length ≤ off + 1) :
    read2LE r off = none := by
  rw [read2LE, List.getElem?_eq_none h]
  cases r[off]? <;> rfl

theorem sampleMatrix_isSome (p : Parameters) (r : List Nat) (n1 n2 : Nat)
    (hlen : 2 * n1 * n2 ≤ r.length) :
    (SampleMatrix p r n1 n2).isSome = true := by
  rw [SampleMatrix]
  apply optMap_isSome
  intro i hi
  apply optMap_isSome
  intro j hj
  have hi2 : i < n1 := List.mem_range.mp hi
  have hj2 : j < n2 := List.mem_range.mp hj
  have hoff : 2 * (i * n2 + j) + 1 < r.length := by
    have h3 : (i + 1) * n2 ≤ n1 * n2 := Nat.mul_le_mul_right _ hi2
    rw [Nat.succ_mul] at h3
    have h4 : 2 * n1 * n2 = 2 * (n1 * n2) := by ring
    omega
  rw [read2LE_some r _ hoff]
  rfl

/-! C1 through C10: the claims. -/

set_option maxRecDepth 40000 in
/-- C1: at the failing input (Frodo640, the all-zero 16-byte seed, the
extendable-output function modelled so that output byte p is p mod 256) the
source's Gen yields entry 0x0201 at row 0, column 1, taking the low byte from
output byte 2i+1 = 1, while the byte-pair layout the claim states (GenSpec,
low byte from output byte 2j+1 = 3) yields 0x0203: the code disagrees with
the claimed layout at this input. -/
theorem c1_gen_low_byte_mismatch :
    ((Gen shakeCount Frodo640 (List.replicate 16 0)).getD 0 []).getD 1 0 = 0x0201 ∧
    ((GenSpec shakeCount Frodo640 (List.replicate 16 0)).getD 0 []).getD 1 0 = 0x0203 ∧
    ((Gen shakeCount Frodo640 (List.replicate 16 0)).getD 0 []).getD 1 0 ≠
      ((GenSpec shakeCount Frodo640 (List.replicate 16 0)).getD 0 []).getD 1 0 := by
  refine ⟨by decide, by decide, by decide⟩

/-- C4 counterexample: for Frodo640 (D = 15), SampleMatrix on the buffer
[0, 0] returns the 1-by-1 matrix with entry 0xfffd = 65533, which is not
below 2^D = 32768: not every entry produced by every component lies in the
ring range for the parameter set in use. -/
theorem c4_counterexample :
    SampleMatrix Frodo640 [0, 0] 1 1 = some [[65533]] ∧
      ¬ (65533 < 2 ^ Frodo640.D) := by
  refine ⟨by decide, by decide⟩

/-- C4 amended: every entry of a Gen matrix lies in [0, 2^D) for each of the
three parameter sets (the mask q is 2^D - 1), while every entry of a
SampleMatrix matrix is only guaranteed below 2^16, which coincides with 2^D
for Frodo976 and Frodo1344 (D = 16) but not for Frodo640 (D = 15). -/
theorem c4_matrix_ranges (p : Parameters)
    (hp : p = Frodo640 ∨ p = Frodo976 ∨ p = Frodo1344) :
    (∀ shake seed i j, ((Gen shake p seed).getD i []).getD j 0 < 2 ^ p.D) ∧
    (∀ r n1 n2 E, SampleMatrix p r n1 n2 = some E →
      ∀ row ∈ E, ∀ e ∈ row, e < 65536) := by
  constructor
  · intro shake seed i j
    by_cases hi : i < p.no
    · by_cases hj : j < p.no
      · rw [gen_entry shake p seed i j hi hj]
        have h1 : ∀ x : Nat, x &&& p.q ≤ p.q := fun x => Nat.and_le_right
        have h2 : p.q < 2 ^ p.D := by rcases hp with h | h | h <;> subst h <;> decide
        exact Nat.lt_of_le_of_lt (h1 _) h2
      · rw [Gen, getD_map_range, if_pos hi, getD_map_range, if_neg hj]
        exact Nat.two_pow_pos _
    · rw [Gen, getD_map_range, if_neg hi]
      simp only [List.getD_nil]
      exact Nat.two_pow_pos _
  · intro r n1 n2 E hE row hrow e he2
    rw [SampleMatrix] at hE
    obtain ⟨i, _, hrowi⟩ := optMap_mem _ _ _ hE row hrow
    obtain ⟨j, _, hej⟩ := optMap_mem _ _ _ hrowi e he2
    cases hread : read2LE r (2 * (i * n2 + j)) with
    | none => rw [hread] at hej; cases hej
    | some t =>
      rw [hread] at hej
      simp only [Option.map_some'] at hej
      cases hej
      exact sampleT_lt t

/-- C4 witness: the amended statement applied to Frodo640 and concrete
inputs. -/
theorem c4_witness :
    ((Gen shakeCount Frodo640 (List.replicate 16 0)).getD 0 []).getD 0 0
      < 2 ^ Frodo640.D :=
  (c4_matrix_ranges Frodo640 (Or.inl rfl)).1 shakeCount (List.replicate 16 0) 0 0

/-- C5: Gen and SampleMatrix are deterministic: with the extendable-output
function a fixed function of its input (as the spec requires of SHAKE), equal
seeds give equal Gen matrices and equal buffers give equal SampleMatrix
results. -/
theorem c5_deterministic (shake : List Nat → Nat → List Nat) (p : Parameters)
    (s1 s2 : List Nat) (hs : s1 = s2) (r1 r2 : List Nat) (hr : r1 = r2) (n1 n2 : Nat) :
    Gen shake p s1 = Gen shake p s2 ∧
      SampleMatrix p r1 n1 n2 = SampleMatrix p r2 n1 n2 := by
  subst hs
  subst hr
  exact ⟨rfl, rfl⟩

/-- C5 witness: determinism applied at concrete inputs. -/
theorem c5_witness :
    Gen shakeCount Frodo640 (List.replicate 16 0)
        = Gen shakeCount Frodo640 (List.replicate 16 0) ∧
      SampleMatrix Frodo640 [0, 0] 1 1 = SampleMatrix Frodo640 [0, 0] 1 1 :=
  c5_deterministic shakeCount Frodo640 _ _ rfl _ _ rfl 1 1

/-- C6 counterexample: for Frodo640 the stored field l is 16 while
B*m*n_cols = 2*8*8 = 128: l is not the total encoded-message bit length. -/
theorem c6_counterexample :
    Frodo640.l ≠ Frodo640.B * Frodo640.m * Frodo640.n := by decide

/-- C6 amended: each constructor returns a record with n ≡ 0 mod 8,
B ≤ D ≤ 16, and l = B*m*n_cols/8: the field l stores the encoded-message
byte length, one eighth of the bit length. -/
theorem c6_parameter_invariants :
    (Frodo640.no % 8 = 0 ∧ Frodo640.B ≤ Frodo640.D ∧ Frodo640.D ≤ 16 ∧
      Frodo640.l = Frodo640.B * Frodo640.m * Frodo640.n / 8) ∧
    (Frodo976.no % 8 = 0 ∧ Frodo976.B ≤ Frodo976.D ∧ Frodo976.D ≤ 16 ∧
      Frodo976.l = Frodo976.B * Frodo976.m * Frodo976.n / 8) ∧
    (Frodo1344.no % 8 = 0 ∧ Frodo1344.B ≤ Frodo1344.D ∧ Frodo1344.D ≤ 16 ∧
      Frodo1344.l = Frodo1344.B * Frodo1344.m * Frodo1344.n / 8) := by decide

/-- C8 counterexample: Gen performs no seed-length validation: called on the
empty seed (length 0, not the configured 16 bytes) for Frodo640, it does not
fail but returns the usual 640-row matrix. -/
theorem c8_counterexample :
    (Gen shakeCount Frodo640 []).length = Frodo640.no ∧
      ([] : List Nat).length ≠ Frodo640.lseedA := by
  constructor
  · rw [Gen]
    simp
  · decide

/-- C8 amended: Gen has no failure path at all: for every hash function,
parameter set and seed of any length, it returns a matrix of no rows, each
with no columns. -/
theorem c8_gen_total (shake : List Nat → Nat → List Nat) (p : Parameters) (seed : List Nat) :
    (Gen shake p seed).length = p.no ∧
      ∀ row ∈ Gen shake p seed, row.length = p.no := by
  constructor
  · rw [Gen]
    simp
  · intro row hrow
    rw [Gen] at hrow
    obtain ⟨i, _, hr⟩ := List.mem_map.mp hrow
    rw [← hr]
    simp

/-- C9 counterexample: SampleMatrix does not fail on a buffer whose length
differs from 2*n1*n2: with n1 = n2 = 1 and a 4-byte buffer (4 is not 2) it
succeeds rather than failing. -/
theorem c9_counterexample :
    SampleMatrix Frodo640 [0, 0, 0, 0] 1 1 ≠ none ∧
      ([0, 0, 0, 0] : List Nat).length ≠ 2 * 1 * 1 := by
  refine ⟨by decide, by decide⟩

/-- C9 amended: SampleMatrix has no length validation: for positive
dimensions it succeeds exactly when the buffer holds at least 2*n1*n2 bytes
(surplus bytes are ignored), and a shorter buffer is an out-of-range slice
read (a run-time panic), not an InvalidBufferLength error value. -/
theorem c9_sample_length (p : Parameters) (r : List Nat) (n1 n2 : Nat)
    (h1 : 0 < n1) (h2 : 0 < n2) :
    (SampleMatrix p r n1 n2).isSome = true ↔ 2 * n1 * n2 ≤ r.length := by
  constructor
  · intro hsome
    by_contra hlen
    obtain ⟨a, rfl⟩ : ∃ a, n1 = a + 1 := ⟨n1 - 1, by omega⟩
    obtain ⟨b, rfl⟩ : ∃ b, n2 = b + 1 := ⟨n2 - 1, by omega⟩
    have hnone : SampleMatrix p r (a + 1) (b + 1) = none := by
      rw [SampleMatrix]
      apply optMap_none_of
      refine ⟨a, List.mem_range.mpr (by omega), ?_⟩
      apply optMap_none_of
      refine ⟨b, List.mem_range.mpr (by omega), ?_⟩
      have hoff : r.length ≤ 2 * (a * (b + 1) + b) + 1 := by
        have haux : 2 * (a + 1) * (b + 1) = 2 * (a * (b + 1) + b + 1) := by ring
        omega
      rw [read2LE_none r _ hoff]
      rfl
    rw [hnone] at hsome
    cases hsome
  · exact sampleMatrix_isSome p r n1 n2

/-- C9 witness: the amended statement applied at a concrete buffer. -/
theorem c9_witness :
    (SampleMatrix Frodo640 [0, 0] 1 1).isSome = true ∧ 0 < 1 ∧
      2 * 1 * 1 ≤ ([0, 0] : List Nat).length :=
  ⟨(c9_sample_length Frodo640 [0, 0] 1 1 (by decide) (by decide)).mpr (by decide),
    by decide, by decide⟩

/-- C10: on a buffer of length at least 2*n1*n2, SampleMatrix succeeds and
every entry has the form 0xfffd - a + b mod 2^16 with 0 ≤ a ≤ 16 and
0 ≤ b ≤ 16, hence lies in {0xffed, ..., 0xffff} or {0x0, ..., 0xd}: as a
centered residue every sample lies in [-19, +13]. -/
theorem c10_sampler_range (p : Parameters) (r : List Nat) (n1 n2 : Nat)
    (hlen : 2 * n1 * n2 ≤ r.length) :
    ∃ E, SampleMatrix p r n1 n2 = some E ∧
      ∀ row ∈ E, ∀ e ∈ row,
        ∃ a b, a ≤ 16 ∧ b ≤ 16 ∧ e = (0xfffd - a + b) % 65536 ∧
          (0xffed ≤ e ∨ e ≤ 0xd) := by
  obtain ⟨E, hE⟩ := Option.isSome_iff_exists.mp (sampleMatrix_isSome p r n1 n2 hlen)
  refine ⟨E, hE, ?_⟩
  intro row hrow e he2
  rw [SampleMatrix] at hE
  obtain ⟨i, _, hrowi⟩ := optMap_mem _ _ _ hE row hrow
  obtain ⟨j, _, hej⟩ := optMap_mem _ _ _ hrowi e he2
  cases hread : read2LE r (2 * (i * n2 + j)) with
  | none => rw [hread] at hej; cases hej
  | some t =>
    rw [hread] at hej
    simp only [Option.map_some'] at hej
    cases hej
    exact sampleT_form t

/-- C10 witness: the sampler range statement at a concrete buffer. -/
theorem c10_witness :
    ∃ E, SampleMatrix Frodo640 [0, 0] 1 1 = some E ∧
      ∀ row ∈ E, ∀ e ∈ row,
        ∃ a b, a ≤ 16 ∧ b ≤ 16 ∧ e = (0xfffd - a + b) % 65536 ∧
          (0xffed ≤ e ∨ e ≤ 0xd) :=
  c10_sampler_range Frodo640 [0, 0] 1 1 (by decide)


/-! Position arithmetic for the row-major bit layout. -/

theorem pos_decomp (n2 D i j pl : Nat) (hj : j < n2) (hpl : pl < D) :
    (i * (n2 * D) + (j * D + pl)) / (n2 * D) = i ∧
    (i * (n2 * D) + (j * D + pl)) % (n2 * D) = j * D + pl ∧
    (j * D + pl) / D = j ∧
    (i * (n2 * D) + (j * D + pl)) % D = pl := by
  have hr : j * D + pl < n2 * D := by
    have h1 : (j + 1) * D ≤ n2 * D := Nat.mul_le_mul_right _ hj
    rw [Nat.succ_mul] at h1
    omega
  have hperm : i * (n2 * D) + (j * D + pl) = (n2 * D) * i + (j * D + pl) := by ring
  refine ⟨?_, ?_, ?_, ?_⟩
  · rw [hperm, Nat.mul_add_div (by omega), Nat.div_eq_of_lt hr]
    omega
  · rw [hperm, Nat.mul_add_mod, Nat.mod_eq_of_lt hr]
  · have hperm2 : j * D + pl = D * j + pl := by ring
    rw [hperm2, Nat.mul_add_div (by omega), Nat.div_eq_of_lt hpl]
    omega

  · have hperm3 : i * (n2 * D) + (j * D + pl) = D * (i * n2 + j) + pl := by ring
    rw [hperm3, Nat.mul_add_mod, Nat.mod_eq_of_lt hpl]

theorem pos_div8_lt (Dp n1 n2 L i j pl : Nat) (hi : i < n1) (hj : j < n2) (hpl : pl < Dp)
    (hL : Dp * n1 * n2 ≤ 8 * L) : ((i * n2 + j) * Dp + pl) / 8 < L := by
  have h1 : (i + 1) * n2 ≤ n1 * n2 := Nat.mul_le_mul_right _ hi
  rw [Nat.succ_mul] at h1
  have h2 : (i * n2 + j + 1) * Dp ≤ n1 * n2 * Dp := Nat.mul_le_mul_right _ (by omega)
  rw [Nat.succ_mul] at h2
  have h3 : n1 * n2 * Dp = Dp * n1 * n2 := by ring
  omega

/-! The Pack content lemma: on a well-shaped matrix whose bit budget fills
whole bytes, Pack succeeds, returns D*n1*n2/8 bytes and byte-stream bit p is
bit D-1-(p mod D) of entry p div D (row-major). -/

theorem pack_spec (param : Parameters) (C : List (List Nat)) (n1 n2 : Nat)
    (hn1 : C.length = n1) (h0 : 0 < n1) (hrows : ∀ row ∈ C, row.length = n2)
    (hdvd : param.D * n1 * n2 % 8 = 0) :
    ∃ b, Pack param C = some b ∧ b.length = param.D * n1 * n2 / 8 ∧
      ∀ p, p < param.D * n1 * n2 →
        bitAt b p
          = ((C.getD (p / (n2 * param.D)) []).getD (p % (n2 * param.D) / param.D) 0).testBit
              (param.D - 1 - p % param.D) := by
  obtain ⟨r0, rest, rfl⟩ : ∃ r0 rest, C = r0 :: rest := by
    cases C with
    | nil => simp at hn1; omega
    | cons a bb => exact ⟨a, bb, rfl⟩
  have hr0 : r0.length = n2 := hrows r0 (List.mem_cons_self _ _)
  have hL8 : 8 * (param.D * n1 * n2 / 8) = param.D * n1 * n2 := by omega
  simp only [Pack, hn1, hr0]
  refine ⟨(List.range n1).foldl
      (fun b i => (List.range n2).foldl
        (fun b2 j => (List.range param.D).foldl
          (fun b3 pl =>
            if (((r0 :: rest).getD i []).getD j 0) &&& (1 <<< (param.D - 1 - pl)) != 0 then
              setBit8 b3 ((i * n2 + j) * param.D + pl)
            else b3)
          b2)
        b)
      (List.replicate (param.D * n1 * n2 / 8) 0), ?_, ?_, ?_⟩
  · -- the Option-threaded triple loop succeeds and equals the pure triple loop
    have houter := optFold_some_of
      (fun b i =>
        optFold
          (fun b2 j =>
            optFold
              (fun b3 pl =>
                if (((r0 :: rest).getD i []).getD j 0) &&& (1 <<< (param.D - 1 - pl)) != 0 then
                  bset b3 ((i * n2 + j) * param.D + pl)
                else some b3)
              b2 (List.range param.D))
          b (List.range n2))
      (fun b i => (List.range n2).foldl
        (fun b2 j => (List.range param.D).foldl
          (fun b3 pl =>
            if (((r0 :: rest).getD i []).getD j 0) &&& (1 <<< (param.D - 1 - pl)) != 0 then
              setBit8 b3 ((i * n2 + j) * param.D + pl)
            else b3)
          b2)
        b)
      (fun b => b.length = param.D * n1 * n2 / 8)
      (List.range n1) (List.replicate (param.D * n1 * n2 / 8) 0)
      (by simp)
      ?_
    · exact houter.1
    · intro b i hb hi
      have hi2 : i < n1 := List.mem_range.mp hi
      have hmid := optFold_some_of
        (fun b2 j =>
          optFold
            (fun b3 pl =>
              if (((r0 :: rest).getD i []).getD j 0) &&& (1 <<< (param.D - 1 - pl)) != 0 then
                bset b3 ((i * n2 + j) * param.D + pl)
              else some b3)
            b2 (List.range param.D))
        (fun b2 j => (List.range param.D).foldl
          (fun b3 pl =>
            if (((r0 :: rest).getD i []).getD j 0) &&& (1 <<< (param.D - 1 - pl)) != 0 then
              setBit8 b3 ((i * n2 + j) * param.D + pl)
            else b3)
          b2)
        (fun b2 => b2.length = param.D * n1 * n2 / 8)
        (List.range n2) b hb ?_
      · exact hmid
      · intro b2 j hb2 hj
        have hj2 : j < n2 := List.mem_range.mp hj
        have hin := optFold_some_of
          (fun b3 pl =>
            if (((r0 :: rest).getD i []).getD j 0) &&& (1 <<< (param.D - 1 - pl)) != 0 then
              bset b3 ((i * n2 + j) * param.D + pl)
            else some b3)
          (fun b3 pl =>
            if (((r0 :: rest).getD i []).getD j 0) &&& (1 <<< (param.D - 1 - pl)) != 0 then
              setBit8 b3 ((i * n2 + j) * param.D + pl)
            else b3)
          (fun b3 => b3.length = param.D * n1 * n2 / 8)
          (List.range param.D) b2 hb2 ?_
        · exact hin
        · intro b3 pl hb3 hpl
          dsimp only
          have hpl2 : pl < param.D := List.mem_range.mp hpl
          by_cases hc : ((((r0 :: rest).getD i []).getD j 0) &&&
              (1 <<< (param.D - 1 - pl)) != 0) = true
          · rw [if_pos hc, if_pos hc, bset,
              if_pos (by
                rw [hb3]
                exact pos_div8_lt param.D n1 n2 _ i j pl hi2 hj2 hpl2 (by omega))]
            exact ⟨rfl, by rw [length_setBit8, hb3]⟩
          · rw [if_neg hc, if_neg hc]
            exact ⟨rfl, hb3⟩
  · -- length and bit content of the pure result, via the flat write fold
    have hflat : (List.range n1).foldl
        (fun b i => (List.range n2).foldl
          (fun b2 j => (List.range param.D).foldl
            (fun b3 pl =>
              if (((r0 :: rest).getD i []).getD j 0) &&& (1 <<< (param.D - 1 - pl)) != 0 then
                setBit8 b3 ((i * n2 + j) * param.D + pl)
              else b3)
            b2)
          b)
        (List.replicate (param.D * n1 * n2 / 8) 0)
      = (List.range (n1 * (n2 * param.D))).foldl
          (fun k p =>
            if (((r0 :: rest).getD (p / (n2 * param.D)) []).getD
                (p % (n2 * param.D) / param.D) 0).testBit (param.D - 1 - p % param.D) then
              setBit8 k p
            else k)
          (List.replicate (param.D * n1 * n2 / 8) 0) := by
      rw [foldl_range_mul
        (fun k p =>
          if (((r0 :: rest).getD (p / (n2 * param.D)) []).getD
              (p % (n2 * param.D) / param.D) 0).testBit (param.D - 1 - p % param.D) then
            setBit8 k p
          else k)
        n1 (n2 * param.D)]
      apply List.foldl_ext
      intro acc i _
      rw [foldl_range_mul
        (fun acc2 q =>
          if (((r0 :: rest).getD ((i * (n2 * param.D) + q) / (n2 * param.D)) []).getD
              ((i * (n2 * param.D) + q) % (n2 * param.D) / param.D) 0).testBit
              (param.D - 1 - (i * (n2 * param.D) + q) % param.D) then
            setBit8 acc2 (i * (n2 * param.D) + q)
          else acc2)
        n2 param.D]
      apply List.foldl_ext
      intro acc2 j hj
      apply List.foldl_ext
      intro acc3 pl hpl
      dsimp only
      have hj2 : j < n2 := List.mem_range.mp hj
      have hpl2 : pl < param.D := List.mem_range.mp hpl
      obtain ⟨hd1, hd2, hd3, hd4⟩ := pos_decomp n2 param.D i j pl hj2 hpl2
      have hpos : (i * n2 + j) * param.D + pl = i * (n2 * param.D) + (j * param.D + pl) := by
        ring
      rw [hpos, hd1, hd2, hd3, hd4, and_one_shift_ne]
    rw [hflat]
    obtain ⟨hWBlen, hWBmem, hWBbit⟩ := writeBits_spec
      (fun p => (((r0 :: rest).getD (p / (n2 * param.D)) []).getD
        (p % (n2 * param.D) / param.D) 0).testBit (param.D - 1 - p % param.D))
      (List.replicate (param.D * n1 * n2 / 8) 0)
      (fun b hb => by rw [List.eq_of_mem_replicate hb]; omega)
      (n1 * (n2 * param.D))
    rw [hWBlen, List.length_replicate]
  · -- bit content
    intro p hp
    have hflat : (List.range n1).foldl
        (fun b i => (List.range n2).foldl
          (fun b2 j => (List.range param.D).foldl
            (fun b3 pl =>
              if (((r0 :: rest).getD i []).getD j 0) &&& (1 <<< (param.D - 1 - pl)) != 0 then
                setBit8 b3 ((i * n2 + j) * param.D + pl)
              else b3)
            b2)
          b)
        (List.replicate (param.D * n1 * n2 / 8) 0)
      = (List.range (n1 * (n2 * param.D))).foldl
          (fun k p =>
            if (((r0 :: rest).getD (p / (n2 * param.D)) []).getD
                (p % (n2 * param.D) / param.D) 0).testBit (param.D - 1 - p % param.D) then
              setBit8 k p
            else k)
          (List.replicate (param.D * n1 * n2 / 8) 0) := by
      rw [foldl_range_mul
        (fun k p =>
          if (((r0 :: rest).getD (p / (n2 * param.D)) []).getD
              (p % (n2 * param.D) / param.D) 0).testBit (param.D - 1 - p % param.D) then
            setBit8 k p
          else k)
        n1 (n2 * param.D)]
      apply List.foldl_ext
      intro acc i _
      rw [foldl_range_mul
        (fun acc2 q =>
          if (((r0 :: rest).getD ((i * (n2 * param.D) + q) / (n2 * param.D)) []).getD
              ((i * (n2 * param.D) + q) % (n2 * param.D) / param.D) 0).testBit
              (param.D - 1 - (i * (n2 * param.D) + q) % param.D) then
            setBit8 acc2 (i * (n2 * param.D) + q)
          else acc2)
        n2 param.D]
      apply List.foldl_ext
      intro acc2 j hj
      apply List.foldl_ext
      intro acc3 pl hpl
      dsimp only
      have hj2 : j < n2 := List.mem_range.mp hj
      have hpl2 : pl < param.D := List.mem_range.mp hpl
      obtain ⟨hd1, hd2, hd3, hd4⟩ := pos_decomp n2 param.D i j pl hj2 hpl2
      have hpos : (i * n2 + j) * param.D + pl = i * (n2 * param.D) + (j * param.D + pl) := by
        ring
      rw [hpos, hd1, hd2, hd3, hd4, and_one_shift_ne]
    rw [hflat]
    obtain ⟨hWBlen, hWBmem, hWBbit⟩ := writeBits_spec
      (fun p => (((r0 :: rest).getD (p / (n2 * param.D)) []).getD
        (p % (n2 * param.D) / param.D) 0).testBit (param.D - 1 - p % param.D))
      (List.replicate (param.D * n1 * n2 / 8) 0)
      (fun b hb => by rw [List.eq_of_mem_replicate hb]; omega)
      (n1 * (n2 * param.D))
    rw [hWBbit p, bitAt_replicate_zero]
    have hN : n1 * (n2 * param.D) = param.D * n1 * n2 := by ring
    have h1 : p < n1 * (n2 * param.D) := by omega
    have h2 : p / 8 < (List.replicate (param.D * n1 * n2 / 8) (0 : Nat)).length := by
      rw [List.length_replicate]
      omega
    simp [h1, h2]
    intro _
    omega


theorem pos_lt_total (Dp n1 n2 i j pl : Nat) (hi : i < n1) (hj : j < n2) (hpl : pl < Dp) :
    (i * n2 + j) * Dp + pl < Dp * n1 * n2 := by
  have h1 : (i + 1) * n2 ≤ n1 * n2 := Nat.mul_le_mul_right _ hi
  rw [Nat.succ_mul] at h1
  have h2 : (i * n2 + j + 1) * Dp ≤ n1 * n2 * Dp := Nat.mul_le_mul_right _ (by omega)
  rw [Nat.succ_mul] at h2
  have h3 : n1 * n2 * Dp = Dp * n1 * n2 := by ring
  omega

theorem getD_mem_of_lt {α : Type} (l : List α) (i : Nat) (d : α) (h : i < l.length) :
    l.getD i d ∈ l := by
  rw [List.getD_eq_getElem?_getD, List.getElem?_eq_getElem h]
  exact List.getElem_mem h

theorem map_range_getD_eq (C : List (List Nat)) (n1 n2 : Nat) (hn1 : C.length = n1)
    (hrows : ∀ row ∈ C, row.length = n2) :
    (List.range n1).map (fun i => (List.range n2).map (fun j => (C.getD i []).getD j 0)) = C := by
  apply List.ext_getElem
  · simp [hn1]
  · intro i h1 h2
    rw [List.getElem_map, List.getElem_range]
    have hi : i < C.length := h2
    have hrow : C.getD i [] = C[i] := by
      rw [List.getD_eq_getElem?_getD, List.getElem?_eq_getElem hi]
      rfl
    apply List.ext_getElem
    · rw [List.length_map, List.length_range]
      exact (hrows C[i] (List.getElem_mem hi)).symm
    · intro j hj1 hj2
      rw [List.getElem_map, List.getElem_range, hrow, List.getD_eq_getElem?_getD,
        List.getElem?_eq_getElem hj2]
      rfl

theorem unpack_entry_eq (D : Nat) (g : Nat → Bool) (x : Nat) (hx : x < 2 ^ D)
    (hg : ∀ pl, pl < D → g pl = x.testBit (D - 1 - pl)) :
    (List.range D).foldl (fun c pl => if g pl then c ||| (1 <<< (D - 1 - pl)) else c) 0 = x := by
  apply Nat.eq_of_testBit_eq
  intro t
  rw [Bool.eq_iff_iff, orAcc_testBit g (fun pl => D - 1 - pl) D t]
  by_cases ht : t < D
  · constructor
    · rintro ⟨pl, hpl, hgl, hhl⟩
      rw [hg pl hpl] at hgl
      rw [← hhl]
      exact hgl
    · intro hxb
      refine ⟨D - 1 - t, by omega, ?_, by omega⟩
      rw [hg (D - 1 - t) (by omega)]
      have he : D - 1 - (D - 1 - t) = t := by omega
      rw [he]
      exact hxb
  · constructor
    · rintro ⟨pl, hpl, _, hhl⟩
      omega
    · intro hxb
      have hx2 : x.testBit t = false :=
        Nat.testBit_lt_two_pow
          (lt_of_lt_of_le hx (Nat.pow_le_pow_right (by omega) (by omega)))
      rw [hx2] at hxb
      cases hxb

/-! The Unpack content lemma: from a byte string whose bits carry a
well-shaped matrix in the row-major D-bit layout, Unpack recovers exactly
that matrix. -/

theorem unpack_spec (param : Parameters) (b : List Nat) (n1 n2 : Nat) (C : List (List Nat))
    (hn1 : C.length = n1) (hrows : ∀ row ∈ C, row.length = n2)
    (hent : ∀ row ∈ C, ∀ x ∈ row, x < 2 ^ param.D)
    (hb8 : param.D * n1 * n2 ≤ 8 * b.length)
    (hbit : ∀ p, p < param.D * n1 * n2 →
      bitAt b p
        = ((C.getD (p / (n2 * param.D)) []).getD (p % (n2 * param.D) / param.D) 0).testBit
            (param.D - 1 - p % param.D)) :
    Unpack param b n1 n2 = some C := by
  rw [Unpack]
  have hstep : ∀ i j, i < n1 → j < n2 →
      optFold
        (fun c pl =>
          match bget b ((i * n2 + j) * param.D + pl) with
          | some true => some (c ||| (1 <<< (param.D - 1 - pl)))
          | some false => some c
          | none => none)
        0 (List.range param.D)
      = some ((C.getD i []).getD j 0) := by
    intro i j hi hj
    have hpure := optFold_some_of
      (fun c pl =>
        match bget b ((i * n2 + j) * param.D + pl) with
        | some true => some (c ||| (1 <<< (param.D - 1 - pl)))
        | some false => some c
        | none => none)
      (fun c pl =>
        if bitAt b ((i * n2 + j) * param.D + pl) then c ||| (1 <<< (param.D - 1 - pl)) else c)
      (fun _ => True)
      (List.range param.D) 0 trivial
      ?_
    · rw [hpure.1]
      congr 1
      apply unpack_entry_eq
      · have hi2 : i < C.length := by omega
        have hrl : (C.getD i []).length = n2 :=
          hrows (C.getD i []) (getD_mem_of_lt C i [] hi2)
        have hj2 : j < (C.getD i []).length := by omega
        exact hent (C.getD i []) (getD_mem_of_lt C i [] hi2)
          ((C.getD i []).getD j 0) (getD_mem_of_lt (C.getD i []) j 0 hj2)
      · intro pl hpl
        have hp := hbit ((i * n2 + j) * param.D + pl) (pos_lt_total param.D n1 n2 i j pl hi hj hpl)
        obtain ⟨hd1, hd2, hd3, hd4⟩ := pos_decomp n2 param.D i j pl hj hpl
        have hpos : (i * n2 + j) * param.D + pl = i * (n2 * param.D) + (j * param.D + pl) := by
          ring
        rw [hpos, hd1, hd2, hd3, hd4] at hp
        rw [← hpos] at hp
        exact hp
    · intro c pl _ hpl
      dsimp only
      have hpl2 : pl < param.D := List.mem_range.mp hpl
      have hin : ((i * n2 + j) * param.D + pl) / 8 < b.length :=
        pos_div8_lt param.D n1 n2 _ i j pl hi hj hpl2 hb8
      rw [bget, if_pos hin]
      cases hbb : bitAt b ((i * n2 + j) * param.D + pl) <;> simp
  have hinner : ∀ i, i < n1 →
      optMap
        (fun j =>
          optFold
            (fun c pl =>
              match bget b ((i * n2 + j) * param.D + pl) with
              | some true => some (c ||| (1 <<< (param.D - 1 - pl)))
              | some false => some c
              | none => none)
            0 (List.range param.D))
        (List.range n2)
      = some ((List.range n2).map (fun j => (C.getD i []).getD j 0)) := by
    intro i hi
    apply optMap_some_of
    intro j hj
    exact hstep i j hi (List.mem_range.mp hj)
  have houter := optMap_some_of
    (fun i =>
      optMap
        (fun j =>
          optFold
            (fun c pl =>
              match bget b ((i * n2 + j) * param.D + pl) with
              | some true => some (c ||| (1 <<< (param.D - 1 - pl)))
              | some false => some c
              | none => none)
            0 (List.range param.D))
        (List.range n2))
    (fun i => (List.range n2).map (fun j => (C.getD i []).getD j 0))
    (List.range n1)
    (fun i hi => hinner i (List.mem_range.mp hi))
  rw [houter, map_range_getD_eq C n1 n2 hn1 hrows]


/-- C7 counterexample: Pack allocates with Go integer division D*n1*n2/8,
not the ceiling: for a 1-by-1 matrix under Frodo640 (D = 15, entry 0, so no
bit write panics) it returns 1 byte, not the claimed 2 bytes that would hold
all 15 entry bits. -/
theorem c7_counterexample :
    (Pack Frodo640 [[0]]).map List.length = some 1 ∧
      (1 : Nat) ≠ (Frodo640.D * 1 * 1 + 7) / 8 := by
  refine ⟨by decide, by decide⟩

/-- C7 amended: when the bit budget D*n1*n2 is a multiple of 8 (true of every
dimension pair the scheme uses), Pack succeeds on a well-shaped nonempty
n1-by-n2 matrix and returns exactly D*n1*n2/8 bytes in which byte-stream bit
p (MSB-first) is bit D-1-(p mod D) of the row-major entry number p div D;
for other dimensions the allocation rounds down and trailing bits have no
byte (a set trailing bit is an out-of-range write). -/
theorem c7_pack_layout (param : Parameters) (C : List (List Nat)) (n1 n2 : Nat)
    (hn1 : C.length = n1) (h0 : 0 < n1) (hrows : ∀ row ∈ C, row.length = n2)
    (hdvd : param.D * n1 * n2 % 8 = 0) :
    ∃ b, Pack param C = some b ∧ b.length = param.D * n1 * n2 / 8 ∧
      ∀ p, p < param.D * n1 * n2 →
        bitAt b p
          = ((C.getD (p / (n2 * param.D)) []).getD (p % (n2 * param.D) / param.D) 0).testBit
              (param.D - 1 - p % param.D) :=
  pack_spec param C n1 n2 hn1 h0 hrows hdvd

/-- C7 witness: the amended layout statement at a concrete matrix. -/
theorem c7_witness :
    ∃ b, Pack Frodo640 [[9, 8, 7, 6, 5, 4, 3, 2]] = some b ∧
      b.length = Frodo640.D * 1 * 8 / 8 ∧
      ∀ p, p < Frodo640.D * 1 * 8 →
        bitAt b p
          = ((([[9, 8, 7, 6, 5, 4, 3, 2]] : List (List Nat)).getD (p / (8 * Frodo640.D)) []).getD
              (p % (8 * Frodo640.D) / Frodo640.D) 0).testBit
              (Frodo640.D - 1 - p % Frodo640.D) :=
  c7_pack_layout Frodo640 [[9, 8, 7, 6, 5, 4, 3, 2]] 1 8 (by decide) (by decide)
    (by decide) (by decide)

/-- C3 counterexample: under Frodo640 (D = 15) the 1-by-1 matrix [[1]] does
not round-trip: D*n1*n2 = 15 bits do not fit the 15/8 = 1 allocated byte, the
write of the entry's lowest bit is out of range (a Go panic, modelled none),
so Unpack of Pack is not the original matrix. -/
theorem c3_counterexample :
    (Pack Frodo640 [[1]]).bind (fun b => Unpack Frodo640 b 1 1) ≠ some [[1]] := by
  decide

/-- C3 amended: Unpack inverts Pack exactly on every well-shaped nonempty
n1-by-n2 matrix with entries in [0, 2^D), provided the bit budget D*n1*n2 is
a multiple of 8 (as for every dimension pair the scheme uses); with D = 15
and n1*n2 not a multiple of 8 the packed buffer drops the trailing bits and
the round trip panics instead. -/
theorem c3_pack_unpack_roundtrip (param : Parameters) (C : List (List Nat)) (n1 n2 : Nat)
    (hn1 : C.length = n1) (h0 : 0 < n1) (hrows : ∀ row ∈ C, row.length = n2)
    (hent : ∀ row ∈ C, ∀ x ∈ row, x < 2 ^ param.D)
    (hdvd : param.D * n1 * n2 % 8 = 0) :
    (Pack param C).bind (fun b => Unpack param b n1 n2) = some C := by
  obtain ⟨b, hb, hlen, hbit⟩ := pack_spec param C n1 n2 hn1 h0 hrows hdvd
  rw [hb]
  show Unpack param b n1 n2 = some C
  exact unpack_spec param b n1 n2 C hn1 hrows hent (by omega) hbit

/-- C3 witness: the round trip at a concrete matrix. -/
theorem c3_witness :
    (Pack Frodo640 [[0, 1, 2, 3, 4, 5, 6, 7]]).bind (fun b => Unpack Frodo640 b 1 8)
      = some [[0, 1, 2, 3, 4, 5, 6, 7]] :=
  c3_pack_unpack_roundtrip Frodo640 [[0, 1, 2, 3, 4, 5, 6, 7]] 1 8 (by decide) (by decide)
    (by decide) (by decide) (by decide)


/-! Characterizations of Encode, sumMatrices and Decode for the round trip. -/

theorem encTemp_lt (param : Parameters) (k : List Nat) (i j : Nat) :
    encTemp param k i j < 2 ^ param.B := by
  rw [encTemp]
  exact orAcc_lt _ (fun l => l) param.B param.B (fun pl hpl => hpl)

theorem encTemp_testBit (param : Parameters) (k : List Nat) (i j l : Nat) (hl : l < param.B) :
    (encTemp param k i j).testBit l = bitAt k ((i * param.n + j) * param.B + l) := by
  rw [encTemp, Bool.eq_iff_iff,
    orAcc_testBit (fun l2 => bitAt k ((i * param.n + j) * param.B + l2)) (fun l2 => l2)
      param.B l]
  constructor
  · rintro ⟨pl, hpl, hgl, hhl⟩
    rw [← hhl]
    exact hgl
  · intro hb
    exact ⟨l, hl, hb, rfl⟩

theorem zipWith_getD {α β γ : Type} (f : α → β → γ) (A : List α) (Bl : List β) (i : Nat)
    (dA : α) (dB : β) (dC : γ) (hiA : i < A.length) (hiB : i < Bl.length) :
    (List.zipWith f A Bl).getD i dC = f (A.getD i dA) (Bl.getD i dB) := by
  have hlen : i < (List.zipWith f A Bl).length := by
    rw [List.length_zipWith]
    omega
  rw [getD_eq_getElem _ i dC hlen, getD_eq_getElem A i dA hiA, getD_eq_getElem Bl i dB hiB]
  exact List.getElem_zipWith

theorem sum_shape_entry (param : Parameters) (k : List Nat) (E : List (List Nat))
    (hE1 : E.length = param.m) (hE2 : ∀ row ∈ E, row.length = param.n) :
    (sumMatrices param (Encode param k) E).length = param.m ∧
    (∀ row ∈ sumMatrices param (Encode param k) E, row.length = param.n) ∧
    ∀ i j, i < param.m → j < param.n →
      ((sumMatrices param (Encode param k) E).getD i []).getD j 0
        = (ec param (encTemp param k i j) + (E.getD i []).getD j 0) % 2 ^ param.D := by
  have hA1 : (Encode param k).length = param.m := by
    rw [Encode]
    simp
  have hArow : ∀ i, i < param.m →
      (Encode param k).getD i []
        = (List.range param.n).map (fun j => ec param (encTemp param k i j)) := by
    intro i h
    rw [Encode, getD_map_range, if_pos h]
  have hlen : (sumMatrices param (Encode param k) E).length = param.m := by
    rw [sumMatrices, List.length_zipWith, hA1, hE1, Nat.min_self]
  have hrowD : ∀ i, i < param.m →
      (sumMatrices param (Encode param k) E).getD i []
        = List.zipWith (fun x y => (x + y) % 2 ^ param.D)
            ((Encode param k).getD i []) (E.getD i []) := by
    intro i hi
    rw [sumMatrices]
    exact zipWith_getD _ _ _ i [] [] [] (by omega) (by omega)
  have hrowlen : ∀ i, i < param.m →
      ((sumMatrices param (Encode param k) E).getD i []).length = param.n := by
    intro i hi
    rw [hrowD i hi, List.length_zipWith, hArow i hi, List.length_map, List.length_range,
      hE2 _ (getD_mem_of_lt E i [] (by omega)), Nat.min_self]
  refine ⟨hlen, ?_, ?_⟩
  · intro row hrow
    obtain ⟨i, hi, hroweq⟩ := List.mem_iff_getElem.mp hrow
    have hi2 : i < param.m := by omega
    rw [← hroweq, ← getD_eq_getElem _ i [] hi]
    exact hrowlen i hi2
  · intro i j hi hj
    rw [hrowD i hi]
    have hje : j < ((Encode param k).getD i []).length := by
      rw [hArow i hi, List.length_map, List.length_range]
      omega
    have hjE : j < (E.getD i []).length := by
      rw [hE2 _ (getD_mem_of_lt E i [] (by omega))]
      omega
    rw [zipWith_getD _ _ _ j 0 0 0 hje hjE, hArow i hi, getD_map_range, if_pos hj]

theorem decode_bits (param : Parameters) (K : List (List Nat))
    (hK1 : K.length = param.m) (hK2 : ∀ row ∈ K, row.length = param.n)
    (hl8 : param.m * (param.n * param.B) = 8 * param.l) :
    (Decode param K).length = param.l ∧
    (∀ bb ∈ Decode param K, bb < 256) ∧
    ∀ p, p < param.m * (param.n * param.B) →
      bitAt (Decode param K) p
        = (dc param ((K.getD (p / (param.n * param.B)) []).getD
            (p % (param.n * param.B) / param.B) 0)).testBit (p % param.B) := by
  have hclean : Decode param K
      = (List.range param.m).foldl
          (fun k2 di => (List.range param.n).foldl
            (fun k3 dj => (List.range param.B).foldl
              (fun k4 l =>
                if (dc param ((K.getD di []).getD dj 0)).testBit l then
                  setBit8 k4 ((di * param.n + dj) * param.B + l)
                else k4)
              k3)
            k2)
          (List.replicate param.l 0) := by
    rw [Decode, decodeRows_eq_range param K 0 (List.replicate param.l 0), hK1]
    apply List.foldl_ext
    intro k2 di hdi
    have hdi2 : di < param.m := List.mem_range.mp hdi
    have hrowlen : (K.getD di []).length = param.n :=
      hK2 _ (getD_mem_of_lt K di [] (by omega))
    rw [decodeCells_eq_range param (0 + di) (K.getD di []) 0 k2, hrowlen]
    apply List.foldl_ext
    intro k3 dj _
    rw [decSetCell]
    apply List.foldl_ext
    intro k4 l _
    rw [and_one_shift_ne, Nat.zero_add, Nat.zero_add]
  have hflat : Decode param K
      = (List.range (param.m * (param.n * param.B))).foldl
          (fun k4 p =>
            if (dc param ((K.getD (p / (param.n * param.B)) []).getD
                (p % (param.n * param.B) / param.B) 0)).testBit (p % param.B) then
              setBit8 k4 p
            else k4)
          (List.replicate param.l 0) := by
    rw [hclean, foldl_range_mul
      (fun k4 p =>
        if (dc param ((K.getD (p / (param.n * param.B)) []).getD
            (p % (param.n * param.B) / param.B) 0)).testBit (p % param.B) then
          setBit8 k4 p
        else k4)
      param.m (param.n * param.B)]
    apply List.foldl_ext
    intro acc di _
    rw [foldl_range_mul
      (fun acc2 q =>
        if (dc param ((K.getD ((di * (param.n * param.B) + q) / (param.n * param.B)) []).getD
            ((di * (param.n * param.B) + q) % (param.n * param.B) / param.B) 0)).testBit
            ((di * (param.n * param.B) + q) % param.B) then
          setBit8 acc2 (di * (param.n * param.B) + q)
        else acc2)
      param.n param.B]
    apply List.foldl_ext
    intro acc2 dj hdj
    apply List.foldl_ext
    intro acc3 l hpl
    dsimp only
    have hdj2 : dj < param.n := List.mem_range.mp hdj
    have hpl2 : l < param.B := List.mem_range.mp hpl
    obtain ⟨hd1, hd2, hd3, hd4⟩ := pos_decomp param.n param.B di dj l hdj2 hpl2
    have hpos : (di * param.n + dj) * param.B + l
        = di * (param.n * param.B) + (dj * param.B + l) := by ring
    rw [hpos, hd1, hd2, hd3, hd4]
  rw [hflat]
  obtain ⟨hWlen, hWmem, hWbit⟩ := writeBits_spec
    (fun p => (dc param ((K.getD (p / (param.n * param.B)) []).getD
      (p % (param.n * param.B) / param.B) 0)).testBit (p % param.B))
    (List.replicate param.l 0)
    (fun bb hbb => by rw [List.eq_of_mem_replicate hbb]; omega)
    (param.m * (param.n * param.B))
  refine ⟨by rw [hWlen, List.length_replicate], hWmem, ?_⟩
  intro p hp
  rw [hWbit p, bitAt_replicate_zero]
  have h1 : p / 8 < (List.replicate param.l (0 : Nat)).length := by
    rw [List.length_replicate]
    omega
  simp [hp, h1]
  intro _
  omega


/-- C2: for every byte string k of the configured length and every error
matrix E whose entries, read as centered residues mod 2^D, have magnitude
strictly below 2^(D-B-1), Decode applied to the entrywise mod-2^D sum of
Encode k and E returns exactly k.  Stated for any parameter record with
0 < B < D ≤ 16 and bit budget m*n*B equal to 8*l, which covers all three
constructors. -/
theorem c2_encode_decode_roundtrip (param : Parameters) (hB : 0 < param.B)
    (hBD : param.B < param.D) (hD16 : param.D ≤ 16)
    (hmn : param.m * param.n * param.B = 8 * param.l)
    (k : List Nat) (hk : k.length = param.l) (hkb : ∀ x ∈ k, x < 256)
    (E : List (List Nat)) (hE1 : E.length = param.m) (hE2 : ∀ row ∈ E, row.length = param.n)
    (hEb : ∀ row ∈ E, ∀ e ∈ row, e < 2 ^ param.D ∧
      (e < 2 ^ (param.D - param.B - 1) ∨ 2 ^ param.D - e < 2 ^ (param.D - param.B - 1))) :
    Decode param (sumMatrices param (Encode param k) E) = k := by
  obtain ⟨hK1, hK2, hKe⟩ := sum_shape_entry param k E hE1 hE2
  have hl8 : param.m * (param.n * param.B) = 8 * param.l := by
    rw [← hmn]
    ring
  obtain ⟨hdlen, hdmem, hdbit⟩ :=
    decode_bits param (sumMatrices param (Encode param k) E) hK1 hK2 hl8
  apply List.ext_getElem
  · rw [hdlen, hk]
  · intro idx h1 h2
    have hidx : idx < param.l := by
      rw [hdlen] at h1
      exact h1
    apply Nat.eq_of_testBit_eq
    intro u
    by_cases hu : u < 8
    · have hp8 : (8 * idx + (7 - u)) / 8 = idx := by omega
      have hpm : (8 * idx + (7 - u)) % 8 = 7 - u := by omega
      have hplt : 8 * idx + (7 - u) < param.m * (param.n * param.B) := by omega
      have hLHS : bitAt (Decode param (sumMatrices param (Encode param k) E))
          (8 * idx + (7 - u))
          = (Decode param (sumMatrices param (Encode param k) E))[idx].testBit u := by
        rw [bitAt_eq_testBit, hp8, hpm, getD_eq_getElem _ idx 0 h1]
        congr 1
        omega
      have hRHS : bitAt k (8 * idx + (7 - u)) = k[idx].testBit u := by
        rw [bitAt_eq_testBit, hp8, hpm, getD_eq_getElem k idx 0 h2]
        congr 1
        omega
      rw [← hLHS, ← hRHS, hdbit _ hplt]
      have hnB : 0 < param.n * param.B := by
        rcases Nat.eq_zero_or_pos (param.n * param.B) with h0 | h0
        · have hz : param.m * (param.n * param.B) = 0 := by
            rw [h0]
            ring
          omega
        · exact h0
      have hi' : (8 * idx + (7 - u)) / (param.n * param.B) < param.m :=
        (Nat.div_lt_iff_lt_mul hnB).mpr hplt
      have hmodlt : (8 * idx + (7 - u)) % (param.n * param.B) < param.n * param.B :=
        Nat.mod_lt _ hnB
      have hj' : (8 * idx + (7 - u)) % (param.n * param.B) / param.B < param.n :=
        (Nat.div_lt_iff_lt_mul hB).mpr hmodlt
      have hErow : E.getD ((8 * idx + (7 - u)) / (param.n * param.B)) [] ∈ E :=
        getD_mem_of_lt E _ [] (by omega)
      have hErowlen : (E.getD ((8 * idx + (7 - u)) / (param.n * param.B)) []).length
          = param.n := hE2 _ hErow
      have hEentry := hEb _ hErow
        ((E.getD ((8 * idx + (7 - u)) / (param.n * param.B)) []).getD
          ((8 * idx + (7 - u)) % (param.n * param.B) / param.B) 0)
        (getD_mem_of_lt _ _ 0 (by omega))
      rw [hKe _ _ hi' hj',
        dc_ec_add_noise param hB hBD hD16 _ _ (encTemp_lt param k _ _) hEentry.1 hEentry.2,
        encTemp_testBit param k _ _ _ (Nat.mod_lt _ (by omega))]
      congr 1
      have e1 : (8 * idx + (7 - u)) % (param.n * param.B) % param.B
          = (8 * idx + (7 - u)) % param.B :=
        Nat.mod_mod_of_dvd (8 * idx + (7 - u)) ⟨param.n, by ring⟩
      have e2 : param.B * ((8 * idx + (7 - u)) % (param.n * param.B) / param.B)
            + (8 * idx + (7 - u)) % (param.n * param.B) % param.B
          = (8 * idx + (7 - u)) % (param.n * param.B) :=
        Nat.div_add_mod _ param.B
      have e3 : (param.n * param.B) * ((8 * idx + (7 - u)) / (param.n * param.B))
            + (8 * idx + (7 - u)) % (param.n * param.B)
          = 8 * idx + (7 - u) :=
        Nat.div_add_mod _ (param.n * param.B)
      calc ((8 * idx + (7 - u)) / (param.n * param.B) * param.n
              + (8 * idx + (7 - u)) % (param.n * param.B) / param.B) * param.B
            + (8 * idx + (7 - u)) % param.B
          = (param.n * param.B) * ((8 * idx + (7 - u)) / (param.n * param.B))
            + (param.B * ((8 * idx + (7 - u)) % (param.n * param.B) / param.B)
              + (8 * idx + (7 - u)) % param.B) := by ring
        _ = (param.n * param.B) * ((8 * idx + (7 - u)) / (param.n * param.B))
            + (param.B * ((8 * idx + (7 - u)) % (param.n * param.B) / param.B)
              + (8 * idx + (7 - u)) % (param.n * param.B) % param.B) := by rw [e1]
        _ = (param.n * param.B) * ((8 * idx + (7 - u)) / (param.n * param.B))
            + (8 * idx + (7 - u)) % (param.n * param.B) := by rw [e2]
        _ = 8 * idx + (7 - u) := e3
    · have hbyte1 : (Decode param (sumMatrices param (Encode param k) E))[idx] < 256 :=
        hdmem _ (List.getElem_mem h1)
      have hbyte2 : k[idx] < 256 := hkb _ (List.getElem_mem h2)
      have h256 : (256 : Nat) ≤ 2 ^ u := by
        have h28 : (256 : Nat) = 2 ^ 8 := by norm_num
        rw [h28]
        exact Nat.pow_le_pow_right (by omega) (by omega)
      rw [Nat.testBit_lt_two_pow (lt_of_lt_of_le hbyte1 h256),
        Nat.testBit_lt_two_pow (lt_of_lt_of_le hbyte2 h256)]

/-- C2 witness: the round trip at a concrete byte string and error matrix
with entries of magnitude below 2^(D-B-1) on either side of zero. -/
theorem c2_witness :
    Decode Frodo640
        (sumMatrices Frodo640 (Encode Frodo640 (List.replicate 16 7))
          (List.replicate 8 (List.replicate 8 5)))
      = List.replicate 16 7 :=
  c2_encode_decode_roundtrip Frodo640 (by decide) (by decide) (by decide) (by decide)
    (List.replicate 16 7) (by decide) (by decide)
    (List.replicate 8 (List.replicate 8 5)) (by decide) (by decide) (by decide)

end Frodo
